import Mathlib

/-!
Verification of the backtesting toolkit (simulated broker and result
analyzer) against its design specification.

Monetary amounts and prices are modelled as exact rationals (`ℚ`), share
quantities as integers (`Int`), and symbols, dates and action strings as
`String`.  A `pd.Timestamp` is represented by its formatted string, which is
how the broker code consumes it (carried into transaction records and into
the synthetic order id built with `strftime`).
-/

namespace Backtester

/-- A holding record, translated from the dict
`{"symbol": str, "quantity": int, "buy_price": float}` kept in
`BacktestBroker.holdings`. -/
structure Holding where
  symbol : String
  quantity : Int
  buy_price : ℚ
deriving Repr, DecidableEq

/-- A transaction record, translated from the dict appended to
`BacktestBroker.transactions` in `place_market_order`. -/
structure Transaction where
  date : String
  symbol : String
  action : String
  quantity : Int
  price : ℚ
  transaction_cost : ℚ
  cash_after : ℚ
deriving Repr, DecidableEq

/-- The state of `BacktestBroker` (`src/broker/backtest.py`): initial
capital, cash, flat transaction-cost rate, holdings list, transaction log. -/
structure Broker where
  initial_capital : ℚ
  cash : ℚ
  transaction_cost_pct : ℚ
  holdings : List Holding
  transactions : List Transaction
deriving Repr, DecidableEq

/-- `BacktestBroker.__init__(initial_capital, transaction_cost_pct)`. -/
def mkBroker (initial_capital : ℚ) (transaction_cost_pct : ℚ) : Broker :=
  { initial_capital := initial_capital
    cash := initial_capital
    transaction_cost_pct := transaction_cost_pct
    holdings := []
    transactions := [] }

/-- The default `transaction_cost_pct` of `0.001190`. -/
def defaultCostPct : ℚ := 119 / 100000

/-- `next((h for h in self.holdings if h["symbol"] == symbol), None)`:
the first holding whose symbol matches, if any. -/
def findHolding (holdings : List Holding) (symbol : String) : Option Holding :=
  holdings.find? (fun h => h.symbol = symbol)

/-- In-place update of the first holding whose symbol matches (Python
mutates the dict returned by `next`, which lives inside the list). -/
def updateFirstHolding (holdings : List Holding) (symbol : String)
    (f : Holding → Holding) : List Holding :=
  match holdings with
  | [] => []
  | h :: t =>
      if h.symbol = symbol then f h :: t
      else h :: updateFirstHolding t symbol f

/-- `self.holdings.remove(holding)` where `holding` is the first dict whose
symbol matches: removal of the first matching element. -/
def removeFirstHolding (holdings : List Holding) (symbol : String) :
    List Holding :=
  match holdings with
  | [] => []
  | h :: t =>
      if h.symbol = symbol then t
      else h :: removeFirstHolding t symbol

/-- The synthetic id `f"MOCK_ORDER_{symbol}_{date.strftime('%Y%m%d')}_{transaction_type}"`
returned by `place_market_order` (with `date` already rendered as a string). -/
def mockOrderId (symbol date transaction_type : String) : String :=
  "MOCK_ORDER_" ++ symbol ++ "_" ++ date ++ "_" ++ transaction_type

/-- `BacktestBroker.place_market_order(symbol, quantity, transaction_type,
price, date)`, returning the post-call broker state together with the Python
return value (`none` models `None`). -/
def place_market_order (b : Broker) (symbol : String) (quantity : Int)
    (transaction_type : String) (price : ℚ) (date : String) :
    Broker × Option String :=
  if quantity ≤ 0 then (b, none)
  else
    let transaction_value : ℚ := (quantity : ℚ) * price
    let transaction_cost : ℚ := transaction_value * b.transaction_cost_pct
    if transaction_type = "BUY" then
      let total_cost := transaction_value + transaction_cost
      if total_cost > b.cash then (b, none)
      else
        let cash' := b.cash - total_cost
        let holdings' :=
          match findHolding b.holdings symbol with
          | some existing_holding =>
              let total_quantity := existing_holding.quantity + quantity
              let total_value :=
                (existing_holding.quantity : ℚ) * existing_holding.buy_price
                  + transaction_value
              updateFirstHolding b.holdings symbol (fun h =>
                { h with
                  buy_price := total_value / (total_quantity : ℚ)
                  quantity := total_quantity })
          | none =>
              b.holdings ++ [⟨symbol, quantity, price⟩]
        let txn : Transaction :=
          ⟨date, symbol, "BUY", quantity, price, transaction_cost, cash'⟩
        ({ b with
            cash := cash'
            holdings := holdings'
            transactions := b.transactions ++ [txn] },
         some (mockOrderId symbol date transaction_type))
    else if transaction_type = "SELL" then
      match findHolding b.holdings symbol with
      | none => (b, none)
      | some holding =>
          if holding.quantity < quantity then (b, none)
          else
            let newQuantity := holding.quantity - quantity
            let holdings' :=
              if newQuantity = 0 then removeFirstHolding b.holdings symbol
              else updateFirstHolding b.holdings symbol (fun h =>
                { h with quantity := h.quantity - quantity })
            let net_proceeds := transaction_value - transaction_cost
            let cash' := b.cash + net_proceeds
            let txn : Transaction :=
              ⟨date, symbol, "SELL", quantity, price, transaction_cost, cash'⟩
            ({ b with
                cash := cash'
                holdings := holdings'
                transactions := b.transactions ++ [txn] },
             some (mockOrderId symbol date transaction_type))
    else (b, some (mockOrderId symbol date transaction_type))

/-- `BacktestBroker.reset(initial_capital=None)`. -/
def reset (b : Broker) (initial_capital : Option ℚ) : Broker :=
  let newCapital :=
    match initial_capital with
    | some c => c
    | none => b.initial_capital
  { b with
    initial_capital := newCapital
    cash := newCapital
    holdings := []
    transactions := [] }

/-- `BacktestBroker.get_holdings`: `self.holdings.copy()` — the list value
itself (a shallow copy carries the same element references; reference
semantics are modelled separately for the defensive-copy claim). -/
def get_holdings (b : Broker) : List Holding :=
  b.holdings

/-- `BacktestBroker.get_cash_balance`. -/
def get_cash_balance (b : Broker) : ℚ :=
  b.cash

/-- Price data: a mapping from symbol to a price frame, itself a partial map
from date to the "Close" value (`date ∈ frame.index` iff the map is `some`). -/
abbrev PriceData : Type :=
  String → Option (String → Option ℚ)

/-- `BacktestBroker.get_portfolio_value(price_data, date)`: cash plus, per
holding, quantity times the close on `date` under the `.NS`-suffix key
normalization, falling back to the holding's buy price. -/
def get_portfolio_value (b : Broker) (price_data : PriceData)
    (date : String) : ℚ :=
  let holdings_value :=
    b.holdings.foldl (fun acc holding =>
      let symbol := holding.symbol
      let symbol_key :=
        if (price_data symbol).isNone then symbol ++ ".NS" else symbol
      match price_data symbol_key with
      | some frame =>
          match frame date with
          | some price => acc + (holding.quantity : ℚ) * price
          | none => acc + (holding.quantity : ℚ) * holding.buy_price
      | none => acc + (holding.quantity : ℚ) * holding.buy_price) 0
  b.cash + holdings_value

/-! ### Result analyzer (`src/core/reporting/backtest_result.py`)

An equity curve is modelled by its list of values (`List ℚ`); the
date index plays no role in the metrics verified here. -/

/-- Running maximum continued below a current peak `m` (tail of
`equity.cummax()`). -/
def cummaxFrom (m : ℚ) : List ℚ → List ℚ
  | [] => []
  | x :: xs => max m x :: cummaxFrom (max m x) xs

/-- `equity.cummax()`: the running maximum of the series. -/
def cummax : List ℚ → List ℚ
  | [] => []
  | x :: xs => x :: cummaxFrom x xs

/-- `series.min()`: `none` on an empty series (pandas yields NaN there). -/
def listMin : List ℚ → Option ℚ
  | [] => none
  | x :: xs =>
      match listMin xs with
      | none => some x
      | some m => some (min x m)

/-- `BacktestResult.compute_max_drawdown`: `peak = equity.cummax()`;
`drawdown = (equity - peak) / peak`; `drawdown.min()`. -/
def compute_max_drawdown (equity : List ℚ) : Option ℚ :=
  let peak := cummax equity
  let drawdown := List.zipWith (fun v p => (v - p) / p) equity peak
  listMin drawdown

/-- `series.pct_change().dropna()`: day-over-day percentage returns
(`x_i / x_{i-1} - 1`), the leading NaN dropped. -/
def pct_change (xs : List ℚ) : List ℚ :=
  List.zipWith (fun prev cur => cur / prev - 1) xs xs.tail

/-- `series.mean()`. -/
def mean (xs : List ℚ) : ℚ :=
  xs.sum / (xs.length : ℚ)

/-- `series.std()` squared: the pandas sample variance (`ddof = 1`),
well defined as a rational; `series.std()` itself is its square root and
is zero exactly when this is zero. -/
def sampleVariance (xs : List ℚ) : ℚ :=
  (xs.map (fun x => (x - mean xs) ^ 2)).sum / ((xs.length : ℚ) - 1)

/-- IEEE-style classification of the float produced by `compute_sharpe`.
`finite m v` stands for the ordinary value `m / sqrt v * sqrt 252` with
`v ≠ 0`, recorded by its exact rational parameters (the square root is
irrational); the other constructors are the special float values. -/
inductive SharpeResult where
  | finite (meanExcess : ℚ) (sampleVar : ℚ) : SharpeResult
  | posInf : SharpeResult
  | negInf : SharpeResult
  | nan : SharpeResult
deriving Repr, DecidableEq

/-- `BacktestResult.compute_sharpe(risk_free_rate=0.05)`:
`returns = equity.pct_change().dropna()`; `excess = returns - rate/252`;
result `(excess.mean() / excess.std()) * np.sqrt(252)` under IEEE float
semantics: with fewer than two returns the sample std is NaN and the whole
expression is NaN; with std exactly zero the division yields NaN when the
mean is zero and a signed infinity otherwise (multiplying by the positive
constant `sqrt 252` preserves the class); otherwise a finite value. -/
def compute_sharpe (equity : List ℚ) (risk_free_rate : ℚ) : SharpeResult :=
  let returns := pct_change equity
  let excess := returns.map (fun r => r - risk_free_rate / 252)
  if excess.length < 2 then SharpeResult.nan
  else
    let m := mean excess
    let v := sampleVariance excess
    if v = 0 then
      if m = 0 then SharpeResult.nan
      else if 0 < m then SharpeResult.posInf
      else SharpeResult.negInf
    else SharpeResult.finite m v

/-- A rebalance log: rows of (Date, Symbol), dates modelled as naturals. -/
abbrev RebalanceLog : Type :=
  List (Nat × String)

/-- The distinct dates of the log in ascending order (pandas `groupby`
sorts its keys). -/
def rebalanceDates (log : RebalanceLog) : List Nat :=
  (log.map Prod.fst).toFinset.sort (· ≤ ·)

/-- The set of member symbols recorded on date `d`
(`groupby("Date")["Symbol"].apply(set)` at key `d`). -/
def symbolsOn (log : RebalanceLog) (d : Nat) : Finset String :=
  ((log.filter (fun r => r.1 = d)).map Prod.snd).toFinset

/-- Python 3 `round(q)`: nearest integer, ties to even. -/
def roundHalfEven (q : ℚ) : ℤ :=
  if q - ⌊q⌋ < 1 / 2 then ⌊q⌋
  else if 1 / 2 < q - ⌊q⌋ then ⌊q⌋ + 1
  else if ⌊q⌋ % 2 = 0 then ⌊q⌋ else ⌊q⌋ + 1

/-- Python `round(q, 2)`. -/
def round2 (q : ℚ) : ℚ :=
  (roundHalfEven (q * 100) : ℚ) / 100

/-- `BacktestResult.compute_average_churn`: groups the log by date into
symbol sets, counts per consecutive pair the symbols dropped from the
earlier set, and returns the rounded mean (0 when the log is `None`,
empty, or yields no consecutive pair). -/
def compute_average_churn (rebalance_log : Option RebalanceLog) : ℚ :=
  match rebalance_log with
  | none => 0
  | some log =>
      if log = [] then 0
      else
        let dates := rebalanceDates log
        let grouped := dates.map (symbolsOn log)
        let churn_counts : List ℕ :=
          (grouped.zip grouped.tail).map (fun p => (p.1 \ p.2).card)
        if churn_counts = [] then 0
        else round2 ((churn_counts.sum : ℚ) / (churn_counts.length : ℚ))

/-- Transcription of the specification's description of
`compute_average_churn`: 0.0 when the log is absent, empty, or has fewer
than 2 distinct dates; otherwise the mean over consecutive date pairs of
the count of symbols present on the earlier date but absent from the
later, rounded to 2 decimals. -/
def averageChurnSpec (rebalance_log : Option RebalanceLog) : ℚ :=
  match rebalance_log with
  | none => 0
  | some log =>
      let dates := rebalanceDates log
      if dates.length < 2 then 0
      else
        let datePairs := dates.zip dates.tail
        let dropped : List ℕ :=
          datePairs.map (fun p => (symbolsOn log p.1 \ symbolsOn log p.2).card)
        round2 ((dropped.sum : ℚ) / (dropped.length : ℚ))

/-! ### Reference semantics of `get_holdings` (`self.holdings.copy()`)

Python holdings are mutable dicts on a heap; `self.holdings` is a list of
references to them, and `list.copy()` duplicates only that list of
references.  To state the defensive-copy claim we model the heap
explicitly: a store of `Holding` records addressed by position, a broker
keeping a list of addresses, and caller-side in-place mutation of a record
reached through the returned list. -/

/-- The heap of holding records; an address is an index into it. -/
abbrev HoldingStore : Type :=
  List Holding

/-- The broker's reference-level holdings state. -/
structure BrokerRefs where
  cash : ℚ
  holdingRefs : List Nat
deriving Repr, DecidableEq

/-- `get_holdings` under reference semantics: `self.holdings.copy()` is a
fresh list containing the same record references. -/
def get_holdings_shallow (b : BrokerRefs) : List Nat :=
  b.holdingRefs

/-- Caller-side in-place mutation of the record reached through entry `i`
of a list of references (e.g. `lst[i]["quantity"] = ...`). -/
def mutateRecord (store : HoldingStore) (refs : List Nat) (i : Nat)
    (v : Holding) : HoldingStore :=
  match refs[i]? with
  | some a => store.set a v
  | none => store

/-- The broker's holdings as record values: its internal references
dereferenced in the store. -/
def derefHoldings (store : HoldingStore) (b : BrokerRefs) : List Holding :=
  b.holdingRefs.map (fun a => store[a]?.getD ⟨"", 0, 0⟩)

/-! ### Lemmas about holding lookup and first-match update/removal -/

theorem findHolding_symbol {holdings : List Holding} {symbol : String}
    {h : Holding} (hf : findHolding holdings symbol = some h) :
    h.symbol = symbol := by
  simpa using List.find?_some hf

theorem findHolding_mem {holdings : List Holding} {symbol : String}
    {h : Holding} (hf : findHolding holdings symbol = some h) :
    h ∈ holdings :=
  List.mem_of_find?_eq_some hf

theorem findHolding_eq_none_iff {holdings : List Holding} {symbol : String} :
    findHolding holdings symbol = none ↔ ∀ h ∈ holdings, h.symbol ≠ symbol := by
  simp [findHolding, List.find?_eq_none]

theorem findHolding_cons {a : Holding} {t : List Holding} {symbol : String} :
    findHolding (a :: t) symbol =
      if a.symbol = symbol then some a else findHolding t symbol := by
  by_cases ha : a.symbol = symbol <;> simp [findHolding, List.find?_cons, ha]

theorem findHolding_append {l₁ l₂ : List Holding} {symbol : String} :
    findHolding (l₁ ++ l₂) symbol =
      (findHolding l₁ symbol).or (findHolding l₂ symbol) := by
  simp [findHolding, List.find?_append]

theorem findHolding_updateFirstHolding {l : List Holding} {symbol : String}
    {f : Holding → Holding} (hf : ∀ h, (f h).symbol = h.symbol) {h : Holding}
    (hfind : findHolding l symbol = some h) :
    findHolding (updateFirstHolding l symbol f) symbol = some (f h) := by
  induction l with
  | nil => simp [findHolding] at hfind
  | cons a t ih =>
      rw [findHolding_cons] at hfind
      by_cases ha : a.symbol = symbol
      · rw [if_pos ha] at hfind
        injection hfind with h_eq
        subst h_eq
        rw [updateFirstHolding, if_pos ha, findHolding_cons,
          if_pos ((hf a).trans ha)]
      · rw [if_neg ha] at hfind
        rw [updateFirstHolding, if_neg ha, findHolding_cons, if_neg ha]
        exact ih hfind

theorem mem_updateFirstHolding {l : List Holding} {symbol : String}
    {f : Holding → Holding} {x : Holding}
    (hx : x ∈ updateFirstHolding l symbol f) :
    x ∈ l ∨ ∃ h, findHolding l symbol = some h ∧ x = f h := by
  induction l with
  | nil => simp [updateFirstHolding] at hx
  | cons a t ih =>
      by_cases ha : a.symbol = symbol
      · rw [updateFirstHolding, if_pos ha] at hx
        rcases List.mem_cons.mp hx with hx | hx
        · exact Or.inr ⟨a, by rw [findHolding_cons, if_pos ha], hx⟩
        · exact Or.inl (List.mem_cons_of_mem _ hx)
      · rw [updateFirstHolding, if_neg ha] at hx
        rcases List.mem_cons.mp hx with hx | hx
        · exact Or.inl (hx ▸ List.mem_cons_self _ _)
        · rcases ih hx with hx' | ⟨h, hfind, hxf⟩
          · exact Or.inl (List.mem_cons_of_mem _ hx')
          · exact Or.inr ⟨h, by rw [findHolding_cons, if_neg ha]; exact hfind, hxf⟩

theorem map_symbol_updateFirstHolding {l : List Holding} {symbol : String}
    {f : Holding → Holding} (hf : ∀ h, (f h).symbol = h.symbol) :
    (updateFirstHolding l symbol f).map Holding.symbol
      = l.map Holding.symbol := by
  induction l with
  | nil => rfl
  | cons a t ih =>
      by_cases ha : a.symbol = symbol
      · rw [updateFirstHolding, if_pos ha]
        simp [hf a]
      · rw [updateFirstHolding, if_neg ha]
        simp [ih]

theorem removeFirstHolding_sublist (l : List Holding) (symbol : String) :
    List.Sublist (removeFirstHolding l symbol) l := by
  induction l with
  | nil => simp [removeFirstHolding]
  | cons a t ih =>
      by_cases ha : a.symbol = symbol
      · rw [removeFirstHolding, if_pos ha]
        exact List.sublist_cons_self a t
      · rw [removeFirstHolding, if_neg ha]
        exact List.Sublist.cons₂ a ih

/-- Internal holdings never carry two records for the same symbol. -/
def uniqueSymbols (l : List Holding) : Prop :=
  l.Pairwise (fun a b => a.symbol ≠ b.symbol)

theorem findHolding_removeFirstHolding {l : List Holding} {symbol : String}
    (hu : uniqueSymbols l) :
    findHolding (removeFirstHolding l symbol) symbol = none := by
  induction l with
  | nil => simp [removeFirstHolding, findHolding]
  | cons a t ih =>
      rcases List.pairwise_cons.mp hu with ⟨ha_t, ht⟩
      by_cases ha : a.symbol = symbol
      · rw [removeFirstHolding, if_pos ha]
        exact findHolding_eq_none_iff.mpr fun h hh =>
          fun hs => ha_t h hh (ha.trans hs.symm)
      · rw [removeFirstHolding, if_neg ha, findHolding_cons, if_neg ha]
        exact ih ht

/-- The cost basis `old_qty × old_avg_price` of the symbol's current
holding, zero when no holding exists. -/
def oldCostBasis (holdings : List Holding) (symbol : String) : ℚ :=
  match findHolding holdings symbol with
  | some h => (h.quantity : ℚ) * h.buy_price
  | none => 0

/-! ### C1: BUY accounting -/

/-- C1: for every accepted BUY order (positive quantity, sufficient cash,
holdings well formed), `place_market_order` debits cash so that
`cash_after = cash_before - price*qty*(1+cost_rate)`, leaves the symbol's
holding with `new_qty*new_avg = old_qty*old_avg + price*qty` (a fresh
holding carries `buy_price = price`), and appends exactly one BUY
transaction recording the resulting cash balance. -/
theorem buy_order_spec (b : Broker) (symbol date : String) (quantity : Int)
    (price : ℚ) (hq : 0 < quantity)
    (hpos : ∀ h ∈ b.holdings, 0 < h.quantity)
    (hcash : (quantity : ℚ) * price * (1 + b.transaction_cost_pct) ≤ b.cash) :
    ((place_market_order b symbol quantity "BUY" price date).2).isSome = true ∧
    (place_market_order b symbol quantity "BUY" price date).1.cash
      = b.cash - price * (quantity : ℚ) * (1 + b.transaction_cost_pct) ∧
    (∃ h', findHolding
        (place_market_order b symbol quantity "BUY" price date).1.holdings
        symbol = some h' ∧
      (h'.quantity : ℚ) * h'.buy_price
        = oldCostBasis b.holdings symbol + price * (quantity : ℚ) ∧
      (findHolding b.holdings symbol = none → h' = ⟨symbol, quantity, price⟩)) ∧
    (place_market_order b symbol quantity "BUY" price date).1.transactions
      = b.transactions ++
        [⟨date, symbol, "BUY", quantity, price,
          (quantity : ℚ) * price * b.transaction_cost_pct,
          b.cash - price * (quantity : ℚ) * (1 + b.transaction_cost_pct)⟩] := by
  have hq' : ¬ quantity ≤ 0 := not_le.mpr hq
  have hc : ¬ (b.cash < (quantity : ℚ) * price
      + (quantity : ℚ) * price * b.transaction_cost_pct) := by
    rw [not_lt]
    calc (quantity : ℚ) * price + (quantity : ℚ) * price * b.transaction_cost_pct
        = (quantity : ℚ) * price * (1 + b.transaction_cost_pct) := by ring
      _ ≤ b.cash := hcash
  rcases hfind : findHolding b.holdings symbol with _ | existing
  · refine ⟨?_, ?_, ?_, ?_⟩
    · simp [place_market_order, hq', hc, hfind]
    · simp only [place_market_order, hq', hc, hfind]
      simp
      ring
    · refine ⟨⟨symbol, quantity, price⟩, ?_, ?_, fun _ => rfl⟩
      · simp [place_market_order, hq', hc, hfind, findHolding_append,
          findHolding_cons]
      · simp [oldCostBasis, hfind]
        ring
    · simp only [place_market_order, hq', hc, hfind]
      simp [Transaction.mk.injEq]
      ring
  · have hmem := findHolding_mem hfind
    have hsum : (0 : ℤ) < existing.quantity + quantity := by
      have := hpos existing hmem
      omega
    have hqne : (existing.quantity : ℚ) + (quantity : ℚ) ≠ 0 := by
      have : ((existing.quantity + quantity : ℤ) : ℚ) ≠ 0 := by
        exact_mod_cast hsum.ne'
      push_cast at this
      exact this
    refine ⟨?_, ?_, ?_, ?_⟩
    · simp [place_market_order, hq', hc, hfind]
    · simp only [place_market_order, hq', hc, hfind]
      simp
      ring
    · refine ⟨{ existing with
          buy_price := ((existing.quantity : ℚ) * existing.buy_price
            + (quantity : ℚ) * price) / ((existing.quantity : ℚ) + (quantity : ℚ))
          quantity := existing.quantity + quantity }, ?_, ?_, ?_⟩
      · have hupd := findHolding_updateFirstHolding
          (f := fun h => { h with
            buy_price := ((existing.quantity : ℚ) * existing.buy_price
              + (quantity : ℚ) * price)
              / ((existing.quantity : ℚ) + (quantity : ℚ))
            quantity := existing.quantity + quantity })
          (fun _ => rfl) hfind
        simp only [place_market_order, hq', hc, hfind]
        simpa using hupd
      · simp only [oldCostBasis, hfind]
        push_cast
        field_simp
        ring
      · intro hnone
        exact Option.noConfusion hnone
    · simp only [place_market_order, hq', hc, hfind]
      simp [Transaction.mk.injEq]
      ring

/-- Witness for `buy_order_spec` at the specification's end-to-end example:
capital 100000, default cost rate, BUY 10 shares at 100. -/
theorem buy_order_spec_witness :
    ((place_market_order (mkBroker 100000 defaultCostPct) "ABC" 10 "BUY"
        100 "20240101").2).isSome = true ∧
    (place_market_order (mkBroker 100000 defaultCostPct) "ABC" 10 "BUY"
        100 "20240101").1.cash
      = (mkBroker 100000 defaultCostPct).cash
        - 100 * ((10 : ℤ) : ℚ)
          * (1 + (mkBroker 100000 defaultCostPct).transaction_cost_pct) ∧
    (∃ h', findHolding
        (place_market_order (mkBroker 100000 defaultCostPct) "ABC" 10 "BUY"
          100 "20240101").1.holdings "ABC" = some h' ∧
      (h'.quantity : ℚ) * h'.buy_price
        = oldCostBasis (mkBroker 100000 defaultCostPct).holdings "ABC"
          + 100 * ((10 : ℤ) : ℚ) ∧
      (findHolding (mkBroker 100000 defaultCostPct).holdings "ABC" = none →
        h' = ⟨"ABC", 10, 100⟩)) ∧
    (place_market_order (mkBroker 100000 defaultCostPct) "ABC" 10 "BUY"
        100 "20240101").1.transactions
      = (mkBroker 100000 defaultCostPct).transactions ++
        [⟨"20240101", "ABC", "BUY", 10, 100,
          ((10 : ℤ) : ℚ) * 100 * (mkBroker 100000 defaultCostPct).transaction_cost_pct,
          (mkBroker 100000 defaultCostPct).cash
            - 100 * ((10 : ℤ) : ℚ)
              * (1 + (mkBroker 100000 defaultCostPct).transaction_cost_pct)⟩] :=
  buy_order_spec (mkBroker 100000 defaultCostPct) "ABC" "20240101" 10 100
    (by decide) (by simp [mkBroker]) (by norm_num [mkBroker, defaultCostPct])

/-! ### C2: SELL accounting -/

/-- C2: for every accepted SELL order (positive quantity, a holding for the
symbol with enough shares, per-symbol-unique holdings), `place_market_order`
credits cash so that `cash_after = cash_before + price*qty*(1-cost_rate)`,
decreases the holding's quantity by exactly `qty`, removes the holding iff
the resulting quantity is 0, and appends exactly one SELL transaction
recording the resulting cash balance. -/
theorem sell_order_spec (b : Broker) (symbol date : String) (quantity : Int)
    (price : ℚ) (holding : Holding) (hq : 0 < quantity)
    (hfind : findHolding b.holdings symbol = some holding)
    (hqty : quantity ≤ holding.quantity)
    (hu : uniqueSymbols b.holdings) :
    ((place_market_order b symbol quantity "SELL" price date).2).isSome = true ∧
    (place_market_order b symbol quantity "SELL" price date).1.cash
      = b.cash + price * (quantity : ℚ) * (1 - b.transaction_cost_pct) ∧
    (findHolding
        (place_market_order b symbol quantity "SELL" price date).1.holdings
        symbol = none
      ↔ holding.quantity - quantity = 0) ∧
    (holding.quantity - quantity ≠ 0 →
      findHolding
          (place_market_order b symbol quantity "SELL" price date).1.holdings
          symbol
        = some { holding with quantity := holding.quantity - quantity }) ∧
    (place_market_order b symbol quantity "SELL" price date).1.transactions
      = b.transactions ++
        [⟨date, symbol, "SELL", quantity, price,
          (quantity : ℚ) * price * b.transaction_cost_pct,
          b.cash + price * (quantity : ℚ) * (1 - b.transaction_cost_pct)⟩] := by
  have hq' : ¬ quantity ≤ 0 := not_le.mpr hq
  have hlt : ¬ (holding.quantity < quantity) := not_lt.mpr hqty
  by_cases hzero : holding.quantity - quantity = 0
  · refine ⟨?_, ?_, ?_, ?_, ?_⟩
    · simp [place_market_order, hq', hlt, hfind, hzero]
    · simp only [place_market_order, hq', hlt, hfind, hzero]
      simp
      ring
    · simp only [place_market_order, hq', hlt, hfind, hzero]
      simp [hzero, findHolding_removeFirstHolding hu]
    · exact fun hne => absurd hzero hne
    · simp only [place_market_order, hq', hlt, hfind, hzero]
      simp [Transaction.mk.injEq]
      ring
  · have hupd := findHolding_updateFirstHolding
      (f := fun h => { h with quantity := h.quantity - quantity })
      (fun _ => rfl) hfind
    refine ⟨?_, ?_, ?_, ?_, ?_⟩
    · simp [place_market_order, hq', hlt, hfind, hzero]
    · simp only [place_market_order, hq', hlt, hfind, hzero]
      simp
      ring
    · simp only [place_market_order, hq', hlt, hfind, hzero]
      simp [hzero, hupd]
    · intro _
      simp only [place_market_order, hq', hlt, hfind, hzero]
      simpa using hupd
    · simp only [place_market_order, hq', hlt, hfind, hzero]
      simp [Transaction.mk.injEq]
      ring

/-- Witness for `sell_order_spec`: a broker holding 5 shares of "A" at
average price 10 selling all 5 at price 20. -/
theorem sell_order_spec_witness :
    ((place_market_order (Broker.mk 100 100 (1/100) [⟨"A", 5, 10⟩] [])
        "A" 5 "SELL" 20 "d").2).isSome = true ∧
    (place_market_order (Broker.mk 100 100 (1/100) [⟨"A", 5, 10⟩] [])
        "A" 5 "SELL" 20 "d").1.cash
      = (Broker.mk 100 100 (1/100) [⟨"A", 5, 10⟩] []).cash
        + 20 * ((5 : ℤ) : ℚ)
          * (1 - (Broker.mk 100 100 (1/100) [⟨"A", 5, 10⟩] []).transaction_cost_pct) ∧
    (findHolding
        (place_market_order (Broker.mk 100 100 (1/100) [⟨"A", 5, 10⟩] [])
          "A" 5 "SELL" 20 "d").1.holdings "A" = none
      ↔ (⟨"A", 5, 10⟩ : Holding).quantity - 5 = 0) ∧
    ((⟨"A", 5, 10⟩ : Holding).quantity - 5 ≠ 0 →
      findHolding
          (place_market_order (Broker.mk 100 100 (1/100) [⟨"A", 5, 10⟩] [])
            "A" 5 "SELL" 20 "d").1.holdings "A"
        = some { (⟨"A", 5, 10⟩ : Holding) with
            quantity := (⟨"A", 5, 10⟩ : Holding).quantity - 5 }) ∧
    (place_market_order (Broker.mk 100 100 (1/100) [⟨"A", 5, 10⟩] [])
        "A" 5 "SELL" 20 "d").1.transactions
      = (Broker.mk 100 100 (1/100) [⟨"A", 5, 10⟩] []).transactions ++
        [⟨"d", "A", "SELL", 5, 20,
          ((5 : ℤ) : ℚ) * 20
            * (Broker.mk 100 100 (1/100) [⟨"A", 5, 10⟩] []).transaction_cost_pct,
          (Broker.mk 100 100 (1/100) [⟨"A", 5, 10⟩] []).cash
            + 20 * ((5 : ℤ) : ℚ)
              * (1 - (Broker.mk 100 100 (1/100) [⟨"A", 5, 10⟩] []).transaction_cost_pct)⟩] :=
  sell_order_spec (Broker.mk 100 100 (1/100) [⟨"A", 5, 10⟩] []) "A" "d" 5 20
    ⟨"A", 5, 10⟩ (by decide) (by decide) (by decide) (by simp [uniqueSymbols])

/-! ### C3: rejected orders are side-effect-free -/

/-- C3: every rejected order returns `None` and leaves the broker state
(cash, holdings, transaction log) fully unchanged: when the quantity is
non-positive, when a BUY's total cost exceeds available cash, or when a
SELL names a symbol with no holding or with fewer held shares than
requested. -/
theorem rejected_order_no_side_effects (b : Broker)
    (symbol date transaction_type : String) (quantity : Int) (price : ℚ)
    (hrej : quantity ≤ 0
      ∨ (transaction_type = "BUY"
          ∧ b.cash < (quantity : ℚ) * price * (1 + b.transaction_cost_pct))
      ∨ (transaction_type = "SELL"
          ∧ ∀ h, findHolding b.holdings symbol = some h →
              h.quantity < quantity)) :
    place_market_order b symbol quantity transaction_type price date
      = (b, none) := by
  rcases hrej with hq | ⟨hbuy, hcash⟩ | ⟨hsell, hsh⟩
  · simp [place_market_order, hq]
  · subst hbuy
    rcases le_or_lt quantity 0 with hq | hq
    · simp [place_market_order, hq]
    · have hq' : ¬ quantity ≤ 0 := not_le.mpr hq
      have hc : b.cash < (quantity : ℚ) * price
          + (quantity : ℚ) * price * b.transaction_cost_pct := by
        calc b.cash
            < (quantity : ℚ) * price * (1 + b.transaction_cost_pct) := hcash
          _ = (quantity : ℚ) * price
              + (quantity : ℚ) * price * b.transaction_cost_pct := by ring
      simp [place_market_order, hq', hc]
  · subst hsell
    rcases le_or_lt quantity 0 with hq | hq
    · simp [place_market_order, hq]
    · have hq' : ¬ quantity ≤ 0 := not_le.mpr hq
      rcases hfind : findHolding b.holdings symbol with _ | h
      · simp [place_market_order, hq', hfind]
      · have hlt := hsh h hfind
        simp [place_market_order, hq', hfind, hlt]

/-- Witness for `rejected_order_no_side_effects`: a BUY of 5 shares at 100
against only 10 in cash is rejected without any state change. -/
theorem rejected_order_no_side_effects_witness :
    place_market_order (mkBroker 10 0) "A" 5 "BUY" 100 "d"
      = (mkBroker 10 0, none) :=
  rejected_order_no_side_effects (mkBroker 10 0) "A" "d" "BUY" 5 100
    (Or.inr (Or.inl ⟨rfl, by norm_num [mkBroker]⟩))

/-! ### C10: transaction types other than BUY and SELL -/

/-- C10: a call with positive quantity and a `transaction_type` other than
"BUY" or "SELL" leaves the broker state entirely unchanged yet still
returns the non-null synthetic order id
`MOCK_ORDER_<symbol>_<date>_<type>`, so a non-null return does not imply
that any order was executed or transaction recorded. -/
theorem non_buy_sell_order_is_noop (b : Broker)
    (symbol date transaction_type : String) (quantity : Int) (price : ℚ)
    (hq : 0 < quantity) (hb : transaction_type ≠ "BUY")
    (hs : transaction_type ≠ "SELL") :
    place_market_order b symbol quantity transaction_type price date
      = (b, some ("MOCK_ORDER_" ++ symbol ++ "_" ++ date ++ "_"
          ++ transaction_type)) := by
  have hq' : ¬ quantity ≤ 0 := not_le.mpr hq
  simp [place_market_order, hq', hb, hs, mockOrderId]

/-- Witness for `non_buy_sell_order_is_noop`: a "HOLD" order is a no-op
that still returns a mock order id. -/
theorem non_buy_sell_order_is_noop_witness :
    place_market_order (mkBroker 100 0) "A" 1 "HOLD" 5 "20240101"
      = (mkBroker 100 0, some "MOCK_ORDER_A_20240101_HOLD") :=
  non_buy_sell_order_is_noop (mkBroker 100 0) "A" "20240101" "HOLD" 1 5
    (by decide) (by decide) (by decide)

/-! ### C4: the broker state invariant -/

/-- The broker state invariant: non-negative initial capital, non-negative
cash, strictly positive quantity for every holding present, and at most
one holding per symbol. -/
def BrokerInv (b : Broker) : Prop :=
  0 ≤ b.initial_capital ∧ 0 ≤ b.cash ∧
  (∀ h ∈ b.holdings, 0 < h.quantity) ∧ uniqueSymbols b.holdings

theorem uniqueSymbols_iff_map {l : List Holding} :
    uniqueSymbols l ↔ (l.map Holding.symbol).Pairwise (· ≠ ·) :=
  (List.pairwise_map).symm

theorem uniqueSymbols_updateFirstHolding {l : List Holding} {symbol : String}
    {f : Holding → Holding} (hf : ∀ h, (f h).symbol = h.symbol)
    (hu : uniqueSymbols l) : uniqueSymbols (updateFirstHolding l symbol f) := by
  rw [uniqueSymbols_iff_map, map_symbol_updateFirstHolding hf]
  rwa [uniqueSymbols_iff_map] at hu

theorem uniqueSymbols_removeFirstHolding {l : List Holding} {symbol : String}
    (hu : uniqueSymbols l) : uniqueSymbols (removeFirstHolding l symbol) :=
  List.Pairwise.sublist (removeFirstHolding_sublist l symbol) hu

theorem uniqueSymbols_append_new {l : List Holding} {x : Holding}
    (hu : uniqueSymbols l) (hnone : findHolding l x.symbol = none) :
    uniqueSymbols (l ++ [x]) := by
  rw [uniqueSymbols, List.pairwise_append]
  refine ⟨hu, List.pairwise_singleton _ _, fun a ha y hy => ?_⟩
  rcases List.mem_singleton.mp hy with rfl
  exact findHolding_eq_none_iff.mp hnone a ha

/-- Counterexample to C4 as stated: the claim does not constrain the
transaction-cost rate, but with a rate above 1 (here 200%) a SELL's net
proceeds are negative.  With non-negative initial capital 6 and all order
prices equal to 2, buying one share (total cost 6) leaves cash 0 and then
selling it (proceeds 2 − 4) leaves cash −2 < 0. -/
theorem broker_cash_nonneg_counterexample :
    0 ≤ (mkBroker 6 2).initial_capital ∧ (0 : ℚ) ≤ 2 ∧
    ((place_market_order
        (place_market_order (mkBroker 6 2) "X" 1 "BUY" 2 "d").1
        "X" 1 "SELL" 2 "d").1).cash < 0 := by
  have hss : ("SELL" : String) ≠ "BUY" := by decide
  refine ⟨by norm_num [mkBroker], by norm_num, ?_⟩
  norm_num [place_market_order, mkBroker, findHolding, updateFirstHolding,
    removeFirstHolding, mockOrderId, hss]

/-- C4 amended: additionally assuming the transaction-cost rate is at most
1 (it is 0.00119 by default), the invariant — cash never negative, every
present holding has positive quantity, at most one holding per symbol —
is established by construction (for non-negative initial capital) and
preserved by `place_market_order` (for non-negative order prices) and by
`reset` (for a non-negative replacement capital). -/
theorem broker_invariant_preserved :
    (∀ initial_capital cost_pct : ℚ, 0 ≤ initial_capital →
      BrokerInv (mkBroker initial_capital cost_pct)) ∧
    (∀ (b : Broker) (symbol date transaction_type : String)
        (quantity : Int) (price : ℚ),
      BrokerInv b → 0 ≤ price → b.transaction_cost_pct ≤ 1 →
      BrokerInv (place_market_order b symbol quantity transaction_type
        price date).1) ∧
    (∀ (b : Broker) (capital : Option ℚ),
      BrokerInv b → (∀ c ∈ capital, 0 ≤ c) →
      BrokerInv (reset b capital)) := by
  refine ⟨?_, ?_, ?_⟩
  · intro ic pct hic
    exact ⟨hic, hic, by simp [mkBroker], by simp [mkBroker, uniqueSymbols]⟩
  · intro b symbol date transaction_type quantity price hinv hprice hpct
    obtain ⟨hic, hcash, hpos, hu⟩ := hinv
    rcases le_or_lt quantity 0 with hq | hq
    · have hstep : (place_market_order b symbol quantity transaction_type
          price date).1 = b := by
        simp [place_market_order, hq]
      rw [hstep]
      exact ⟨hic, hcash, hpos, hu⟩
    have hq' : ¬ quantity ≤ 0 := not_le.mpr hq
    have hqQ : (0 : ℚ) < (quantity : ℚ) := by exact_mod_cast hq
    by_cases hbuy : transaction_type = "BUY"
    · subst hbuy
      by_cases hover : b.cash < (quantity : ℚ) * price
          + (quantity : ℚ) * price * b.transaction_cost_pct
      · have hstep : (place_market_order b symbol quantity "BUY"
            price date).1 = b := by
          simp [place_market_order, hq', hover]
        rw [hstep]
        exact ⟨hic, hcash, hpos, hu⟩
      · have hcash' : (place_market_order b symbol quantity "BUY"
            price date).1.cash
            = b.cash - ((quantity : ℚ) * price
              + (quantity : ℚ) * price * b.transaction_cost_pct) := by
          rcases hfind : findHolding b.holdings symbol with _ | existing <;>
            simp [place_market_order, hq', hover, hfind]
        have hicap : (place_market_order b symbol quantity "BUY"
            price date).1.initial_capital = b.initial_capital := by
          rcases hfind : findHolding b.holdings symbol with _ | existing <;>
            simp [place_market_order, hq', hover, hfind]
        refine ⟨hicap ▸ hic, ?_, ?_, ?_⟩
        · rw [hcash']
          have := not_lt.mp hover
          linarith
        · rcases hfind : findHolding b.holdings symbol with _ | existing
          · have hhold : (place_market_order b symbol quantity "BUY"
                price date).1.holdings
                = b.holdings ++ [⟨symbol, quantity, price⟩] := by
              simp [place_market_order, hq', hover, hfind]
            rw [hhold]
            intro x hx
            rcases List.mem_append.mp hx with hx | hx
            · exact hpos x hx
            · rcases List.mem_singleton.mp hx with rfl
              exact hq
          · have hhold : (place_market_order b symbol quantity "BUY"
                price date).1.holdings
                = updateFirstHolding b.holdings symbol (fun h =>
                  { h with
                    buy_price := ((existing.quantity : ℚ) * existing.buy_price
                      + (quantity : ℚ) * price)
                      / ((existing.quantity : ℚ) + (quantity : ℚ))
                    quantity := existing.quantity + quantity }) := by
              simp [place_market_order, hq', hover, hfind]
            rw [hhold]
            intro x hx
            rcases mem_updateFirstHolding hx with hx | ⟨h, hfh, rfl⟩
            · exact hpos x hx
            · rw [hfind] at hfh
              injection hfh with hfh
              subst hfh
              have := hpos existing (findHolding_mem hfind)
              show 0 < existing.quantity + quantity
              omega
        · rcases hfind : findHolding b.holdings symbol with _ | existing
          · have hhold : (place_market_order b symbol quantity "BUY"
                price date).1.holdings
                = b.holdings ++ [⟨symbol, quantity, price⟩] := by
              simp [place_market_order, hq', hover, hfind]
            rw [hhold]
            exact uniqueSymbols_append_new hu hfind
          · have hhold : (place_market_order b symbol quantity "BUY"
                price date).1.holdings
                = updateFirstHolding b.holdings symbol (fun h =>
                  { h with
                    buy_price := ((existing.quantity : ℚ) * existing.buy_price
                      + (quantity : ℚ) * price)
                      / ((existing.quantity : ℚ) + (quantity : ℚ))
                    quantity := existing.quantity + quantity }) := by
              simp [place_market_order, hq', hover, hfind]
            rw [hhold]
            exact uniqueSymbols_updateFirstHolding (fun _ => rfl) hu
    · by_cases hsell : transaction_type = "SELL"
      · subst hsell
        rcases hfind : findHolding b.holdings symbol with _ | holding
        · have hstep : (place_market_order b symbol quantity "SELL"
              price date).1 = b := by
            simp [place_market_order, hq', hbuy, hfind]
          rw [hstep]
          exact ⟨hic, hcash, hpos, hu⟩
        by_cases hshort : holding.quantity < quantity
        · have hstep : (place_market_order b symbol quantity "SELL"
              price date).1 = b := by
            simp [place_market_order, hq', hbuy, hfind, hshort]
          rw [hstep]
          exact ⟨hic, hcash, hpos, hu⟩
        · have hcash' : (place_market_order b symbol quantity "SELL"
              price date).1.cash
              = b.cash + ((quantity : ℚ) * price
                - (quantity : ℚ) * price * b.transaction_cost_pct) := by
            by_cases hzero : holding.quantity - quantity = 0 <;>
              simp [place_market_order, hq', hbuy, hfind, hshort, hzero]
          have hicap : (place_market_order b symbol quantity "SELL"
              price date).1.initial_capital = b.initial_capital := by
            by_cases hzero : holding.quantity - quantity = 0 <;>
              simp [place_market_order, hq', hbuy, hfind, hshort, hzero]
          refine ⟨hicap ▸ hic, ?_, ?_, ?_⟩
          · rw [hcash']
            have hnn : 0 ≤ (quantity : ℚ) * price
                * (1 - b.transaction_cost_pct) :=
              mul_nonneg (mul_nonneg hqQ.le hprice) (by linarith)
            nlinarith
          · by_cases hzero : holding.quantity - quantity = 0
            · have hhold : (place_market_order b symbol quantity "SELL"
                  price date).1.holdings
                  = removeFirstHolding b.holdings symbol := by
                simp [place_market_order, hq', hbuy, hfind, hshort, hzero]
              rw [hhold]
              intro x hx
              exact hpos x
                (List.Sublist.mem hx (removeFirstHolding_sublist _ _))
            · have hhold : (place_market_order b symbol quantity "SELL"
                  price date).1.holdings
                  = updateFirstHolding b.holdings symbol (fun h =>
                    { h with quantity := h.quantity - quantity }) := by
                simp [place_market_order, hq', hbuy, hfind, hshort, hzero]
              rw [hhold]
              intro x hx
              rcases mem_updateFirstHolding hx with hx | ⟨h, hfh, rfl⟩
              · exact hpos x hx
              · rw [hfind] at hfh
                injection hfh with hfh
                subst hfh
                have hle := not_lt.mp hshort
                show 0 < holding.quantity - quantity
                omega
          · by_cases hzero : holding.quantity - quantity = 0
            · have hhold : (place_market_order b symbol quantity "SELL"
                  price date).1.holdings
                  = removeFirstHolding b.holdings symbol := by
                simp [place_market_order, hq', hbuy, hfind, hshort, hzero]
              rw [hhold]
              exact uniqueSymbols_removeFirstHolding hu
            · have hhold : (place_market_order b symbol quantity "SELL"
                  price date).1.holdings
                  = updateFirstHolding b.holdings symbol (fun h =>
                    { h with quantity := h.quantity - quantity }) := by
                simp [place_market_order, hq', hbuy, hfind, hshort, hzero]
              rw [hhold]
              exact uniqueSymbols_updateFirstHolding (fun _ => rfl) hu
      · have hstep : (place_market_order b symbol quantity transaction_type
            price date).1 = b := by
          simp [place_market_order, hq', hbuy, hsell]
        rw [hstep]
        exact ⟨hic, hcash, hpos, hu⟩
  · intro b capital hinv hcap
    obtain ⟨hic, _, _, _⟩ := hinv
    rcases capital with _ | c
    · exact ⟨hic, hic, by simp [reset], by simp [reset, uniqueSymbols]⟩
    · have hc := hcap c rfl
      exact ⟨hc, hc, by simp [reset], by simp [reset, uniqueSymbols]⟩

/-- Witness for `broker_invariant_preserved`: a freshly constructed broker
satisfies the invariant, and a BUY at the default cost rate preserves it. -/
theorem broker_invariant_preserved_witness :
    BrokerInv (place_market_order (mkBroker 100000 defaultCostPct)
      "ABC" 10 "BUY" 100 "20240101").1 :=
  broker_invariant_preserved.2.1 (mkBroker 100000 defaultCostPct)
    "ABC" "20240101" "BUY" 10 100
    (broker_invariant_preserved.1 100000 defaultCostPct (by norm_num))
    (by norm_num) (by norm_num [mkBroker, defaultCostPct])

/-! ### C5: portfolio valuation -/

/-- The specification's per-holding market value: quantity times the close
price on `date` when the symbol (after optional `.NS` market-suffix
normalization) is present in `price_data` with `date` in its index, and
quantity times the holding's average buy price otherwise. -/
def holdingValueSpec (price_data : PriceData) (date : String)
    (h : Holding) : ℚ :=
  let key :=
    if (price_data h.symbol).isSome then h.symbol else h.symbol ++ ".NS"
  match price_data key with
  | some frame =>
      match frame date with
      | some price => (h.quantity : ℚ) * price
      | none => (h.quantity : ℚ) * h.buy_price
  | none => (h.quantity : ℚ) * h.buy_price

/-- C5: `get_portfolio_value` returns cash plus, for each holding, the
specified market-or-fallback value; as a pure function of the state it
leaves the broker unchanged. -/
theorem get_portfolio_value_spec (b : Broker) (price_data : PriceData)
    (date : String) :
    get_portfolio_value b price_data date
      = b.cash + (b.holdings.map (holdingValueSpec price_data date)).sum := by
  simp only [get_portfolio_value]
  congr 1
  suffices hgen : ∀ (l : List Holding) (c : ℚ),
      (l.foldl (fun acc holding =>
        match price_data (if (price_data holding.symbol).isNone
            then holding.symbol ++ ".NS" else holding.symbol) with
        | some frame =>
            match frame date with
            | some price => acc + (holding.quantity : ℚ) * price
            | none => acc + (holding.quantity : ℚ) * holding.buy_price
        | none => acc + (holding.quantity : ℚ) * holding.buy_price) c)
        = c + (l.map (holdingValueSpec price_data date)).sum by
    rw [hgen b.holdings 0, zero_add]
  intro l
  induction l with
  | nil => intro c; simp
  | cons h t ih =>
      intro c
      rw [List.foldl_cons, ih, List.map_cons, List.sum_cons]
      have hbody : (match price_data (if (price_data h.symbol).isNone
            then h.symbol ++ ".NS" else h.symbol) with
          | some frame =>
              match frame date with
              | some price => c + (h.quantity : ℚ) * price
              | none => c + (h.quantity : ℚ) * h.buy_price
          | none => c + (h.quantity : ℚ) * h.buy_price)
          = c + holdingValueSpec price_data date h := by
        rcases hs : price_data h.symbol with _ | frame
        · rw [holdingValueSpec]
          simp only [hs, Option.isNone_none, Option.isSome_none,
            if_true, if_false, Bool.false_eq_true]
          rcases hk : price_data (h.symbol ++ ".NS") with _ | frame2
          · rfl
          · rcases hd : frame2 date with _ | p <;> simp [hd]
        · rw [holdingValueSpec]
          simp only [hs, Option.isNone_some, Option.isSome_some,
            if_true, if_false, Bool.false_eq_true]
          rcases hd : frame date with _ | p <;> simp [hs, hd]
      rw [hbody]
      ring

/-! ### C9: `get_holdings` is only a shallow copy -/

/-- Counterexample to C9 as stated: `self.holdings.copy()` is a shallow
copy, so in-place mutation of a `Holding` record reached through the
returned list does change the broker's holdings.  With one holding of 10
shares of "A" at 100 (address 0), setting the record reached through
entry 0 of the returned list to quantity 9999 at price 1 changes the
broker's dereferenced holdings. -/
theorem get_holdings_copy_counterexample :
    derefHoldings
        (mutateRecord [(⟨"A", 10, 100⟩ : Holding)]
          (get_holdings_shallow ⟨50, [0]⟩) 0 ⟨"A", 9999, 1⟩)
        ⟨50, [0]⟩
      ≠ derefHoldings [(⟨"A", 10, 100⟩ : Holding)] ⟨50, [0]⟩ := by
  decide

/-- C9 amended: `get_holdings` returns a shallow copy.  The returned list
is a fresh list value (so reshaping it cannot alter the broker's own
reference list), but its entries reference the broker's holding records:
mutating, through any entry of the returned list, a referenced record to
a different value is visible in the broker's holdings. -/
theorem get_holdings_shallow_mutation_visible (store : HoldingStore)
    (b : BrokerRefs) (i a : Nat) (v : Holding)
    (hi : (get_holdings_shallow b)[i]? = some a)
    (ha : a < store.length)
    (hv : store[a]? ≠ some v) :
    derefHoldings (mutateRecord store (get_holdings_shallow b) i v) b
      ≠ derefHoldings store b := by
  intro heq
  have hmut : mutateRecord store (get_holdings_shallow b) i v
      = store.set a v := by
    rw [mutateRecord, hi]
  obtain ⟨old, hold⟩ : ∃ x, store[a]? = some x :=
    ⟨_, List.getElem?_eq_getElem ha⟩
  have hrefs : b.holdingRefs[i]? = some a := hi
  have h1 : (derefHoldings (store.set a v) b)[i]? = some v := by
    rw [derefHoldings, List.getElem?_map, hrefs]
    simp [List.getElem?_set_eq_of_lt _ ha]
  have h2 : (derefHoldings store b)[i]? = some old := by
    rw [derefHoldings, List.getElem?_map, hrefs]
    simp [hold]
  rw [hmut] at heq
  rw [heq, h2] at h1
  exact hv (hold.trans (congrArg some (Option.some.inj h1)))

/-- Witness for `get_holdings_shallow_mutation_visible` at the concrete
single-holding store. -/
theorem get_holdings_shallow_mutation_visible_witness :
    derefHoldings
        (mutateRecord [(⟨"B", 3, 7⟩ : Holding)]
          (get_holdings_shallow ⟨0, [0]⟩) 0 ⟨"B", 4, 7⟩)
        ⟨0, [0]⟩
      ≠ derefHoldings [(⟨"B", 3, 7⟩ : Holding)] ⟨0, [0]⟩ :=
  get_holdings_shallow_mutation_visible [(⟨"B", 3, 7⟩ : Holding)]
    ⟨0, [0]⟩ 0 0 ⟨"B", 4, 7⟩ (by decide) (by decide) (by decide)

/-! ### C6: maximum drawdown -/

/-- The tail of a series does not fall below the running peak `m`. -/
def nonDecFromB (m : ℚ) : List ℚ → Bool
  | [] => true
  | x :: xs => decide (m ≤ x) && nonDecFromB x xs

/-- The series is monotonically non-decreasing. -/
def nonDecreasingB : List ℚ → Bool
  | [] => true
  | x :: xs => nonDecFromB x xs

theorem listMin_eq_none : ∀ {l : List ℚ}, listMin l = none ↔ l = []
  | [] => by simp [listMin]
  | x :: xs => by
      rw [listMin]
      rcases h : listMin xs with _ | k <;> simp

theorem listMin_mem : ∀ {l : List ℚ} {m : ℚ}, listMin l = some m → m ∈ l
  | [], m => by simp [listMin]
  | x :: xs, m => by
      rw [listMin]
      rcases h : listMin xs with _ | k
      · intro hm
        injection hm with hm
        subst hm
        exact List.mem_cons_self _ _
      · intro hm
        injection hm with hm
        subst hm
        rcases le_total x k with hxk | hkx
        · rw [min_eq_left hxk]
          exact List.mem_cons_self _ _
        · rw [min_eq_right hkx]
          exact List.mem_cons_of_mem _ (listMin_mem h)

theorem listMin_le : ∀ {l : List ℚ} {m : ℚ}, listMin l = some m →
    ∀ x ∈ l, m ≤ x
  | [], m => by simp [listMin]
  | y :: ys, m => by
      rw [listMin]
      rcases h : listMin ys with _ | k
      · have hnil : ys = [] := listMin_eq_none.mp h
        subst hnil
        intro hm x hx
        injection hm with hm
        subst hm
        rcases List.mem_singleton.mp hx with rfl
        exact le_refl x
      · intro hm x hx
        injection hm with hm
        subst hm
        rcases List.mem_cons.mp hx with rfl | hx
        · exact min_le_left _ _
        · exact le_trans (min_le_right _ _) (listMin_le h x hx)

theorem drawdown_tail_nonpos : ∀ (xs : List ℚ) (m : ℚ), 0 < m →
    (∀ x ∈ xs, 0 < x) →
    ∀ d ∈ List.zipWith (fun v p => (v - p) / p) xs (cummaxFrom m xs), d ≤ 0
  | [], m => by simp [cummaxFrom]
  | y :: ys, m => by
      intro hm hpos d hd
      rw [cummaxFrom, List.zipWith_cons_cons] at hd
      have hp : 0 < max m y := lt_max_iff.mpr (Or.inl hm)
      rcases List.mem_cons.mp hd with rfl | hd
      · exact div_nonpos_iff.mpr
          (Or.inr ⟨sub_nonpos.mpr (le_max_right m y), hp.le⟩)
      · exact drawdown_tail_nonpos ys (max m y) hp
          (fun x hx => hpos x (List.mem_cons_of_mem _ hx)) d hd

theorem drawdown_tail_zero_iff : ∀ (xs : List ℚ) (m : ℚ), 0 < m →
    (∀ x ∈ xs, 0 < x) →
    ((∀ d ∈ List.zipWith (fun v p => (v - p) / p) xs (cummaxFrom m xs),
        d = 0) ↔ nonDecFromB m xs = true)
  | [], m => by simp [cummaxFrom, nonDecFromB]
  | y :: ys, m => by
      intro hm hpos
      rw [cummaxFrom, List.zipWith_cons_cons, nonDecFromB]
      have hy : 0 < y := hpos y (List.mem_cons_self _ _)
      have htail : ∀ x ∈ ys, 0 < x :=
        fun x hx => hpos x (List.mem_cons_of_mem _ hx)
      by_cases hmy : m ≤ y
      · rw [max_eq_right hmy]
        constructor
        · intro hall
          rw [Bool.and_eq_true]
          refine ⟨decide_eq_true hmy, ?_⟩
          exact (drawdown_tail_zero_iff ys y hy htail).mp
            (fun d hd => hall d (List.mem_cons_of_mem _ hd))
        · intro hb d hd
          rw [Bool.and_eq_true] at hb
          rcases List.mem_cons.mp hd with rfl | hd
          · rw [sub_self, zero_div]
          · exact (drawdown_tail_zero_iff ys y hy htail).mpr hb.2 d hd
      · rw [max_eq_left (le_of_not_le hmy)]
        constructor
        · intro hall
          exfalso
          have h0 := hall ((y - m) / m) (List.mem_cons_self _ _)
          rcases div_eq_zero_iff.mp h0 with h1 | h1
          · exact hmy (le_of_eq (by linarith))
          · exact hm.ne' h1
        · intro hb
          rw [Bool.and_eq_true] at hb
          exact absurd (of_decide_eq_true hb.1) hmy

/-- C6: on a nonempty series of positive values, `compute_max_drawdown`
returns `some` minimum of `(value - running_max)/running_max` over the
series; that minimum is always ≤ 0 and equals 0 exactly when the series
is monotonically non-decreasing. -/
theorem compute_max_drawdown_spec (equity : List ℚ) (hne : equity ≠ [])
    (hpos : ∀ x ∈ equity, 0 < x) :
    ∃ m, compute_max_drawdown equity = some m ∧
      m ≤ 0 ∧ (m = 0 ↔ nonDecreasingB equity = true) := by
  rcases equity with _ | ⟨x, xs⟩
  · exact absurd rfl hne
  have hx : 0 < x := hpos x (List.mem_cons_self _ _)
  have hpxs : ∀ y ∈ xs, 0 < y :=
    fun y hy => hpos y (List.mem_cons_of_mem _ hy)
  have hdd : compute_max_drawdown (x :: xs)
      = listMin (0 :: List.zipWith (fun v p => (v - p) / p) xs
          (cummaxFrom x xs)) := by
    simp only [compute_max_drawdown, cummax, List.zipWith_cons_cons]
    rw [sub_self, zero_div]
  obtain ⟨m, hm⟩ : ∃ m, listMin (0 :: List.zipWith (fun v p => (v - p) / p)
      xs (cummaxFrom x xs)) = some m := by
    rcases h : listMin (0 :: List.zipWith (fun v p => (v - p) / p) xs
        (cummaxFrom x xs)) with _ | m
    · exact absurd (listMin_eq_none.mp h) (by simp)
    · exact ⟨m, rfl⟩
  refine ⟨m, hdd.trans hm, ?_, ?_⟩
  · exact listMin_le hm 0 (List.mem_cons_self _ _)
  · rw [nonDecreasingB]
    constructor
    · intro hm0
      refine (drawdown_tail_zero_iff xs x hx hpxs).mp (fun d hd => ?_)
      have h1 := listMin_le hm d (List.mem_cons_of_mem _ hd)
      have h2 := drawdown_tail_nonpos xs x hx hpxs d hd
      linarith
    · intro hnd
      have hall := (drawdown_tail_zero_iff xs x hx hpxs).mpr hnd
      rcases List.mem_cons.mp (listMin_mem hm) with rfl | hmem
      · rfl
      · exact hall m hmem

/-- Witness for `compute_max_drawdown_spec` on the positive series
`[4, 2, 3]` (drawdowns `[0, -1/2, -1/4]`). -/
theorem compute_max_drawdown_spec_witness :
    ∃ m, compute_max_drawdown [(4 : ℚ), 2, 3] = some m ∧
      m ≤ 0 ∧ (m = 0 ↔ nonDecreasingB [(4 : ℚ), 2, 3] = true) :=
  compute_max_drawdown_spec [(4 : ℚ), 2, 3] (by decide) (by decide)

/-! ### C7: average churn -/

/-- C7: `compute_average_churn` agrees with the specification's
description — group the log by date into symbol sets in ascending date
order, count for each consecutive pair of dates the symbols present on
the earlier date but absent from the later, return the mean rounded to 2
decimals, and 0.0 for an absent, empty, or fewer-than-two-distinct-dates
log — and returns 1 on the log with sets A,B on day 1 and B,C on day 2. -/
theorem compute_average_churn_spec :
    (∀ log, compute_average_churn log = averageChurnSpec log) ∧
    compute_average_churn (some [(1, "A"), (1, "B"), (2, "B"), (2, "C")])
      = 1 := by
  constructor
  · intro log
    rcases log with _ | log
    · rfl
    by_cases hnil : log = []
    · subst hnil
      simp [compute_average_churn, averageChurnSpec,
        show rebalanceDates ([] : RebalanceLog) = [] from by
          simp [rebalanceDates]]
    · simp only [compute_average_churn, averageChurnSpec]
      rw [if_neg hnil]
      have hmap : ((rebalanceDates log).map (symbolsOn log)).zip
          (((rebalanceDates log).map (symbolsOn log)).tail)
          = ((rebalanceDates log).zip ((rebalanceDates log).tail)).map
            (fun p => (symbolsOn log p.1, symbolsOn log p.2)) := by
        rw [← List.map_tail, List.zip_map]
        rfl
      rw [hmap, List.map_map]
      have hfun : ((fun p : Finset String × Finset String => (p.1 \ p.2).card)
          ∘ (fun p : ℕ × ℕ => (symbolsOn log p.1, symbolsOn log p.2)))
          = fun p : ℕ × ℕ => (symbolsOn log p.1 \ symbolsOn log p.2).card :=
        rfl
      rw [hfun]
      by_cases hlen : (rebalanceDates log).length < 2
      · rw [if_pos hlen]
        have hpairs : (rebalanceDates log).zip
            ((rebalanceDates log).tail) = [] := by
          apply List.eq_nil_of_length_eq_zero
          rw [List.length_zip, List.length_tail,
            min_eq_right (Nat.sub_le _ 1)]
          omega
        rw [hpairs]
        simp
      · rw [if_neg hlen]
        have hne : ((rebalanceDates log).zip
              ((rebalanceDates log).tail)).map
              (fun p : ℕ × ℕ =>
                (symbolsOn log p.1 \ symbolsOn log p.2).card) ≠ [] := by
          intro h
          have hlen0 := congrArg List.length h
          rw [List.length_map, List.length_zip, List.length_tail,
            min_eq_right (Nat.sub_le _ 1)] at hlen0
          simp at hlen0
          omega
        rw [if_neg hne]
  · have h1 : ∀ b ∈ ({2} : Finset ℕ), 1 ≤ b := by simp
    have h2 : (1 : ℕ) ∉ ({2} : Finset ℕ) := by simp
    have hsort : Finset.sort (fun x1 x2 => x1 ≤ x2) ({1, 2} : Finset ℕ)
        = [1, 2] := by
      rw [show ({1, 2} : Finset ℕ) = insert 1 {2} from rfl,
        Finset.sort_insert _ h1 h2, Finset.sort_singleton]
    have hcard : ((({"A", "B"} : Finset String))
        \ ({"B", "C"} : Finset String)).card = 1 := by
      decide
    norm_num [compute_average_churn, rebalanceDates, hsort, symbolsOn,
      round2, roundHalfEven, hcard]
    simp

/-! ### C8: Sharpe ratio under zero return variance -/

theorem sum_map_sub (l : List ℚ) (c : ℚ) :
    (l.map (fun x => x - c)).sum = l.sum - l.length * c := by
  induction l with
  | nil => simp
  | cons x xs ih =>
      simp [ih]
      ring

theorem mean_map_sub (l : List ℚ) (c : ℚ) (hne : l ≠ []) :
    mean (l.map (fun x => x - c)) = mean l - c := by
  have hlen : (0 : ℚ) < (l.length : ℚ) := by
    exact_mod_cast List.length_pos.mpr hne
  rw [mean, mean, List.length_map, sum_map_sub]
  field_simp

theorem sampleVariance_map_sub (l : List ℚ) (c : ℚ) (hne : l ≠ []) :
    sampleVariance (l.map (fun x => x - c)) = sampleVariance l := by
  simp only [sampleVariance, List.length_map, List.map_map,
    mean_map_sub l c hne]
  have hcomp : ((fun x => (x - (mean l - c)) ^ 2) ∘ fun x : ℚ => x - c)
      = fun x : ℚ => (x - mean l) ^ 2 := by
    funext x
    simp only [Function.comp_apply]
    ring
  rw [hcomp]

/-- Counterexample to C8 as stated: the equity curve `[100, 200, 400]`
has daily returns `[1, 1]` whose sample standard deviation is exactly 0,
yet the mean excess return `1 - 0.05/252` is positive, so
`excess.mean() / excess.std()` is `+inf` (IEEE division of a positive
float by `0.0`), not NaN. -/
theorem compute_sharpe_zero_stdev_counterexample :
    sampleVariance (pct_change [(100 : ℚ), 200, 400]) = 0 ∧
    compute_sharpe [(100 : ℚ), 200, 400] (1 / 20) = SharpeResult.posInf ∧
    SharpeResult.posInf ≠ SharpeResult.nan := by
  refine ⟨by norm_num [pct_change, sampleVariance, mean], ?_, by decide⟩
  norm_num [compute_sharpe, pct_change, sampleVariance, mean]

/-- C8 amended: `compute_sharpe` computes the annualized ratio of the
mean of daily excess returns to their sample standard deviation scaled by
√252; when the daily returns have zero sample standard deviation (or
fewer than two returns exist, where the sample deviation is NaN) it
returns, without raising, NaN when the mean excess return is zero or
fewer than two returns exist, and a signed infinity — not NaN — when the
mean excess return is nonzero. -/
theorem compute_sharpe_zero_stdev (equity : List ℚ) (risk_free_rate : ℚ)
    (hσ : sampleVariance (pct_change equity) = 0
      ∨ (pct_change equity).length < 2) :
    compute_sharpe equity risk_free_rate =
      if (pct_change equity).length < 2 then SharpeResult.nan
      else if mean ((pct_change equity).map
          (fun r => r - risk_free_rate / 252)) = 0 then SharpeResult.nan
      else if 0 < mean ((pct_change equity).map
          (fun r => r - risk_free_rate / 252)) then SharpeResult.posInf
      else SharpeResult.negInf := by
  by_cases hlen : (pct_change equity).length < 2
  · rw [if_pos hlen]
    simp only [compute_sharpe, List.length_map]
    rw [if_pos hlen]
  · have hne : pct_change equity ≠ [] := by
      intro h0
      rw [h0] at hlen
      simp at hlen
    have hvar : sampleVariance ((pct_change equity).map
        (fun r => r - risk_free_rate / 252)) = 0 := by
      rw [sampleVariance_map_sub _ _ hne]
      rcases hσ with h | h
      · exact h
      · exact absurd h hlen
    rw [if_neg hlen]
    simp only [compute_sharpe, List.length_map]
    rw [if_neg hlen, if_pos hvar]

/-- Witness for `compute_sharpe_zero_stdev` at the constant-return curve
`[100, 200, 400]` with the default risk-free rate 0.05. -/
theorem compute_sharpe_zero_stdev_witness :
    compute_sharpe [(100 : ℚ), 200, 400] (1 / 20) =
      if (pct_change [(100 : ℚ), 200, 400]).length < 2 then SharpeResult.nan
      else if mean ((pct_change [(100 : ℚ), 200, 400]).map
          (fun r => r - (1 / 20 : ℚ) / 252)) = 0 then SharpeResult.nan
      else if 0 < mean ((pct_change [(100 : ℚ), 200, 400]).map
          (fun r => r - (1 / 20 : ℚ) / 252)) then SharpeResult.posInf
      else SharpeResult.negInf :=
  compute_sharpe_zero_stdev [(100 : ℚ), 200, 400] (1 / 20)
    (Or.inl (by norm_num [pct_change, sampleVariance, mean]))

end Backtester
